import Mathlib

/-!
The file docker_client.go: endpoint resolution and the event decode loop.

A shallow embedding of `parseHost` and of the reconnect/decode loop of
`getEvents` from `src/docker_client.go`, with the Go standard-library
functions they call (`strings.TrimSpace`, `strings.HasPrefix`,
`strings.TrimPrefix`, `strings.Contains`, `strings.Split`, `strconv.Atoi`,
`fmt.Sprintf("%s:%d")`).

Go strings are modelled by Lean `String`s (sequences of Unicode code points),
which covers every valid UTF-8 Go string.
-/

namespace DockerClient

deriving instance DecidableEq for Except

/-! ## Go standard library -/

/-- Go `unicode.IsSpace`: the code points with the White_Space property. -/
def IsSpace (c : Char) : Bool :=
  let r := c.toNat
  (decide (0x09 ≤ r) && decide (r ≤ 0x0D)) || r == 0x20 || r == 0x85 || r == 0xA0 ||
  r == 0x1680 || (decide (0x2000 ≤ r) && decide (r ≤ 0x200A)) || r == 0x2028 ||
  r == 0x2029 || r == 0x202F || r == 0x205F || r == 0x3000

/-- Go `strings.TrimLeftFunc`. -/
def TrimLeftFunc (s : String) (f : Char → Bool) : String :=
  ⟨s.data.dropWhile f⟩

/-- Go `strings.TrimRightFunc`. -/
def TrimRightFunc (s : String) (f : Char → Bool) : String :=
  ⟨(s.data.reverse.dropWhile f).reverse⟩

/-- Go `strings.TrimSpace`: leading and trailing white space removed. -/
def TrimSpace (s : String) : String :=
  TrimRightFunc (TrimLeftFunc s IsSpace) IsSpace

/-- Go `strings.HasPrefix`. -/
def HasPrefix (s p : String) : Bool :=
  p.data.isPrefixOf s.data

/-- Go `strings.TrimPrefix`. -/
def TrimPrefix (s p : String) : String :=
  if HasPrefix s p then ⟨s.data.drop p.data.length⟩ else s

/-- Whether `sub` occurs in `l` at some offset. -/
def containsChars : List Char → List Char → Bool
  | [], sub => sub.isPrefixOf []
  | c :: cs, sub => sub.isPrefixOf (c :: cs) || containsChars cs sub

/-- Go `strings.Contains`. -/
def Contains (s substr : String) : Bool :=
  containsChars s.data substr.data

/-- The pieces of `l` between the occurrences of `sep`. -/
def splitChars (sep : Char) : List Char → List (List Char)
  | [] => [[]]
  | c :: cs =>
    if c = sep then [] :: splitChars sep cs
    else
      match splitChars sep cs with
      | [] => [[c]]
      | p :: ps => (c :: p) :: ps

/-- Go `strings.Split` with a one-character separator, the only way the
program calls it (`strings.Split(addr, ":")`). -/
def Split (s : String) (sep : Char) : List String :=
  (splitChars sep s.data).map String.mk

/-- Value of a decimal digit, `none` for any other character. -/
def digitVal (c : Char) : Option Nat :=
  if 48 ≤ c.toNat ∧ c.toNat ≤ 57 then some (c.toNat - 48) else none

/-- The digit loop of `strconv.ParseUint` in base 10, without the range check. -/
def parseDigits : List Char → Nat → Option Nat
  | [], n => some n
  | c :: cs, n =>
    match digitVal c with
    | none => none
    | some d => parseDigits cs (n * 10 + d)

/-- Go `strconv.IntSize` on a 64-bit platform. -/
def intSize : Nat := 64

/-- Go `strconv.Atoi`: an optional sign followed by at least one decimal digit,
the value within the range of `int`; `none` stands for a non-nil error. -/
def Atoi (s : String) : Option Int :=
  match s.data with
  | [] => none
  | c :: cs =>
    if c = '-' then
      match cs with
      | [] => none
      | _ :: _ =>
        match parseDigits cs 0 with
        | none => none
        | some n => if n ≤ 2 ^ (intSize - 1) then some (-(n : Int)) else none
    else
      let ds := if c = '+' then cs else c :: cs
      match ds with
      | [] => none
      | _ :: _ =>
        match parseDigits ds 0 with
        | none => none
        | some n => if n < 2 ^ (intSize - 1) then some (n : Int) else none

/-- Go `fmt.Sprintf("%s:%d", host, port)`. -/
def Sprintf (host : String) (port : Int) : String :=
  host ++ ":" ++ toString port

/-! ## parseHost -/

/-- The two errors `parseHost` builds with `fmt.Errorf`, each carrying the
address it embeds in the message. -/
inductive ParseError where
  /-- `Invalid bind address format: %s` -/
  | invalidFormat (addr : String)
  /-- `Invalid bind address protocol: %s` -/
  | invalidProtocol (addr : String)
  deriving DecidableEq, Repr

/-- Lines 51-77 of `parseHost`: what follows the `switch`, run on the
protocol and address the switch chose (`port` keeps its zero value on the
paths that do not assign it). -/
def parseHostRest (proto addr : String) : Except ParseError (String × String) :=
  if proto ≠ "unix" ∧ Contains addr ":" = true then
    match Split addr ':' with
    | [h0, h1] =>
      let host := if h0 ≠ "" then h0 else "127.0.0.1"
      match Atoi h1 with
      | some p =>
        if p ≠ 0 then
          if proto = "unix" then .ok (proto, host) else .ok (proto, Sprintf host p)
        else .error (.invalidFormat addr)
      | none => .error (.invalidFormat addr)
    | _ => .error (.invalidFormat addr)
  else if proto = "tcp" ∧ ¬ Contains addr ":" = true then
    .error (.invalidFormat addr)
  else
    if proto = "unix" then .ok (proto, addr) else .ok (proto, Sprintf addr 0)

/-- The function `parseHost` of docker_client.go: `.ok (proto, address)` for
the three results returned with a nil error, `.error e` otherwise. -/
def parseHost (addr : String) : Except ParseError (String × String) :=
  let addr := TrimSpace addr
  if addr = "tcp://" then .error (.invalidFormat addr)
  else if HasPrefix addr "unix://" then
    let addr := TrimPrefix addr "unix://"
    let addr := if addr = "" then "/var/run/docker.sock" else addr
    parseHostRest "unix" addr
  else if HasPrefix addr "tcp://" then
    parseHostRest "tcp" (TrimPrefix addr "tcp://")
  else if HasPrefix addr "fd://" then .ok ("fd", addr)
  else if addr = "" then parseHostRest "unix" "/var/run/docker.sock"
  else if Contains addr "://" then .error (.invalidProtocol addr)
  else parseHostRest "tcp" addr

/-! ## getEvents -/

/-- Modelled from the spec: the declaration of the type `Event` is not in
docker_client.go. An event carries at minimum the discriminating `Status`
field; `fields` stands for the other daemon-defined fields, which the
program never reads. -/
structure Event where
  /-- The field `event.Status`. -/
  Status : String
  /-- The remaining fields, uninterpreted. -/
  fields : String
  deriving DecidableEq, Repr

/-- The error value returned by `dec.Decode`, when it is not nil. -/
inductive DecodeError where
  /-- The value `io.EOF`. -/
  | EOF
  /-- Any other error (malformed JSON, a transport error mid-stream). -/
  | other (text : String)
  deriving DecidableEq, Repr

/-- The outcome of one call `dec.Decode(&event)`: the returned error
(`none` for nil) and the pointer left in `event` (`none` for nil). -/
structure Decoded where
  /-- The returned `err`. -/
  err : Option DecodeError
  /-- The variable `event` after the call. -/
  event : Option Event
  deriving DecidableEq, Repr

/-- The lines the program writes with `log.Printf`. -/
inductive LogLine where
  /-- `cannot connect to docker: %s` -/
  | cannotConnect
  /-- `bad request for events: %s` -/
  | badRequest
  /-- `cannot connect to events endpoint: %s` -/
  | cannotConnectEvents
  /-- `connection closed` -/
  | connectionClosed
  /-- `cannot decode json: %s` -/
  | cannotDecode
  deriving DecidableEq, Repr

/-- The observable actions of the goroutine started by `getEvents`, in
program order. -/
inductive Effect where
  /-- A call of `log.Printf`. -/
  | log (line : LogLine)
  /-- A call of `time.Sleep`, in seconds. -/
  | sleep (seconds : Nat)
  /-- The call `net.Dial(proto, addr)` inside `newConn`. -/
  | dial (proto addr : String)
  /-- The call `http.NewRequest("GET", "/events", nil)`. -/
  | newRequest
  /-- The call `c.Do(req)`. -/
  | doRequest
  /-- The call `signal.Notify` and the start of the signal goroutine. -/
  | signalNotify
  /-- The call `c.Close()`. -/
  | closeConn
  /-- The call `resp.Body.Close()`. -/
  | closeBody
  /-- The send `eventChan <- event`. -/
  | send (event : Option Event)
  deriving DecidableEq, Repr

/-- A runtime panic. -/
inductive Fault where
  /-- Reading a field through a nil pointer. -/
  | nilDereference
  deriving DecidableEq, Repr

/-- The expression `event.Status`: a nil `event` makes it panic. -/
def readStatus (event : Option Event) : Except Fault String :=
  match event with
  | none => .error .nilDereference
  | some e => .ok e.Status

/-- Line 143, the condition `err != nil || event.Status == ""`, with the
short-circuit evaluation of `||`. -/
def decodeFailed (r : Decoded) : Except Fault Bool :=
  if r.err ≠ none then .ok true
  else
    match readStatus r.event with
    | .error f => .error f
    | .ok st => .ok (decide (st = ""))

/-- Line 144, the condition `err == io.EOF || (event != nil && event.Status == "")`. -/
def cleanClose (r : Decoded) : Except Fault Bool :=
  if r.err = some .EOF then .ok true
  else if r.event ≠ none then
    match readStatus r.event with
    | .error f => .error f
    | .ok st => .ok (decide (st = ""))
  else .ok false

/-- How one pass through the body of the inner `for` ends. -/
inductive Step where
  /-- The pass reached the end of the body; the loop goes on. -/
  | next (effects : List Effect)
  /-- The pass executed `break`. -/
  | stop (effects : List Effect)
  /-- The pass panicked. -/
  | fault (f : Fault)
  deriving DecidableEq, Repr

/-- Lines 142-154: one pass through the body of the inner `for`, given the
outcome of its `dec.Decode(&event)`. -/
def loopBody (r : Decoded) : Step :=
  match decodeFailed r with
  | .error f => .fault f
  | .ok true =>
    match cleanClose r with
    | .error f => .fault f
    | .ok true => .stop [.log .connectionClosed]
    | .ok false => .stop [.log .cannotDecode, .closeConn, .closeBody]
  | .ok false => .next [.send r.event]

/-- How the inner `for` is left. -/
inductive LoopExit where
  /-- By `break`: the outer loop goes to its next iteration. -/
  | broke
  /-- By a panic, which ends the process. -/
  | panicked (f : Fault)
  /-- Not at all: every outcome was consumed and the loop waits in `Decode`. -/
  | waiting
  deriving DecidableEq, Repr

/-- Lines 141-155: the inner `for` run on the successive outcomes of
`dec.Decode`; the actions performed and how the loop is left. Each send on
`eventChan` is taken to complete (the consumer drains the queue). -/
def decodeLoop : List Decoded → List Effect × LoopExit
  | [] => ([], .waiting)
  | r :: rs =>
    match loopBody r with
    | .fault f => ([], .panicked f)
    | .stop effects => (effects, .broke)
    | .next effects => (effects ++ (decodeLoop rs).1, (decodeLoop rs).2)

/-- What the environment answers during one iteration of the outer `for`. -/
structure Attempt where
  /-- The result of `getDockerEndpoint()`. -/
  endpoint : String
  /-- Whether `net.Dial` returns an error. -/
  dialFails : Bool
  /-- Whether `http.NewRequest` returns an error. -/
  newRequestFails : Bool
  /-- Whether `c.Do(req)` returns an error. -/
  doFails : Bool
  /-- The successive outcomes of `dec.Decode` on `resp.Body`. -/
  body : List Decoded
  deriving DecidableEq, Repr

/-- Lines 80-94, `newConn`: the actions performed and whether a connection
is returned (`true`) or an error. -/
def newConn (a : Attempt) : List Effect × Bool :=
  match parseHost a.endpoint with
  | .error _ => ([], false)
  | .ok (proto, addr) =>
    if a.dialFails then ([.dial proto addr], false) else ([.dial proto addr], true)

/-- Lines 101-156: one iteration of the outer `for`, without signal
delivery; the actions performed and how the inner loop was left (`broke`
also stands for the three `continue` statements). -/
def iteration (a : Attempt) : List Effect × LoopExit :=
  let c := newConn a
  if c.2 = false then
    (c.1 ++ [.log .cannotConnect, .sleep 10], .broke)
  else if a.newRequestFails then
    (c.1 ++ [.newRequest, .log .badRequest, .closeConn, .sleep 10], .broke)
  else if a.doFails then
    (c.1 ++ [.newRequest, .doRequest, .log .cannotConnectEvents, .closeConn, .sleep 10],
      .broke)
  else
    (c.1 ++ [.newRequest, .doRequest, .signalNotify] ++ (decodeLoop a.body).1,
      (decodeLoop a.body).2)

/-- Lines 98-157: the goroutine of `getEvents` run against the answers of
successive connection attempts, without signal delivery. -/
def getEvents : List Attempt → List Effect
  | [] => []
  | a :: rest =>
    match (iteration a).2 with
    | .broke => (iteration a).1 ++ getEvents rest
    | _ => (iteration a).1

/-- The events sent on `eventChan` among a list of actions, in order. -/
def published (effects : List Effect) : List (Option Event) :=
  effects.filterMap fun
    | .send e => some e
    | _ => none

/-- A successfully decoded event with a non-empty status. -/
def wellFormed (r : Decoded) : Bool :=
  match r.err, r.event with
  | none, some e => decide (e.Status ≠ "")
  | _, _ => false

/-- An outcome the code treats as a clean close: `io.EOF`, or a non-nil
event whose status is empty. -/
def isCleanClose (r : Decoded) : Bool :=
  decide (r.err = some .EOF) ||
    (match r.event with
      | some e => decide (e.Status = "")
      | none => false)

/-! ## Facts about the library functions -/

theorem trim_fixed_iff (p : Char → Bool) (l : List Char) :
    (l.dropWhile p).rdropWhile p = l ↔ l.dropWhile p = l ∧ l.rdropWhile p = l := by
  constructor
  · intro h
    have h1 : (l.dropWhile p) <:+ l := List.dropWhile_suffix p
    have h2 : (l.dropWhile p).rdropWhile p <+: l.dropWhile p := List.rdropWhile_prefix p _
    have h3 : l.length ≤ (l.dropWhile p).length := by
      have := h2.length_le
      rw [h] at this
      exact this
    have h4 : l.dropWhile p = l := h1.eq_of_length (le_antisymm h1.length_le h3)
    refine ⟨h4, ?_⟩
    rw [h4] at h
    exact h
  · rintro ⟨h1, h2⟩
    rw [h1, h2]

theorem TrimSpace_eq_self_iff (s : String) :
    TrimSpace s = s ↔
      s.data.dropWhile IsSpace = s.data ∧ s.data.rdropWhile IsSpace = s.data := by
  rw [← trim_fixed_iff]
  constructor
  · intro h
    have := congrArg String.data h
    exact this
  · intro h
    exact String.ext h

theorem dropWhile_cons_fixed (p : Char → Bool) (a : Char) (l : List Char) (h : p a = false) :
    (a :: l).dropWhile p = a :: l := by
  simp [List.dropWhile_cons, h]

theorem rdropWhile_append_fixed (p : Char → Bool) (a l : List Char) (hl : l ≠ [])
    (h : l.rdropWhile p = l) : (a ++ l).rdropWhile p = a ++ l := by
  rw [List.rdropWhile_eq_self_iff] at h ⊢
  intro hne
  rw [List.getLast_append_of_ne_nil hl]
  exact h hl

theorem rdropWhile_fixed_of_getLast (p : Char → Bool) (l : List Char)
    (h : ∀ c, l.getLast? = some c → p c = false) : l.rdropWhile p = l := by
  rw [List.rdropWhile_eq_self_iff]
  intro hne
  have := h (l.getLast hne) (List.getLast?_eq_getLast l hne)
  simp [this]

/-- A string that starts with a non-space character and has no trailing
white space is left alone by `TrimSpace`, also behind a prefix. -/
theorem TrimSpace_append_fixed (a : Char) (pre : List Char) (s : String)
    (ha : IsSpace a = false) (hs : s ≠ "") (h : s.data.rdropWhile IsSpace = s.data) :
    TrimSpace (String.mk (a :: pre) ++ s) = String.mk (a :: pre) ++ s := by
  rw [TrimSpace_eq_self_iff]
  have hne : s.data ≠ [] := fun h0 => hs (String.ext h0)
  constructor
  · simp [List.dropWhile_cons, ha]
  · simp only [String.data_append]
    exact rdropWhile_append_fixed _ _ _ hne h

theorem containsChars_singleton (c : Char) (l : List Char) :
    containsChars l [c] = true ↔ c ∈ l := by
  induction l with
  | nil => simp [containsChars, List.isPrefixOf]
  | cons a t ih =>
    simp only [containsChars, Bool.or_eq_true, ih, List.mem_cons]
    simp [List.isPrefixOf]

theorem Contains_colon_iff (s : String) : Contains s ":" = true ↔ ':' ∈ s.data :=
  containsChars_singleton ':' s.data

theorem containsChars_of_infix (sub a b : List Char) :
    containsChars (a ++ sub ++ b) sub = true := by
  induction a with
  | nil =>
    cases h : sub ++ b with
    | nil =>
      obtain ⟨h1, h2⟩ := List.append_eq_nil.mp h
      subst h1 h2
      simp [containsChars]
    | cons c cs =>
      simp only [List.nil_append, h, containsChars, Bool.or_eq_true]
      left
      rw [← h]
      simp
  | cons x t ih =>
    simp only [List.cons_append, containsChars, Bool.or_eq_true]
    right
    simpa using ih

theorem splitChars_ne_nil (sep : Char) (l : List Char) : splitChars sep l ≠ [] := by
  induction l with
  | nil => simp [splitChars]
  | cons a t ih =>
    simp only [splitChars]
    split_ifs
    · simp
    · cases h : splitChars sep t with
      | nil => exact absurd h ih
      | cons p ps => simp

theorem splitChars_of_not_mem (sep : Char) (l : List Char) (h : sep ∉ l) :
    splitChars sep l = [l] := by
  induction l with
  | nil => simp [splitChars]
  | cons a t ih =>
    simp only [List.mem_cons, not_or] at h
    have h1 : ¬ a = sep := fun e => h.1 e.symm
    simp [splitChars, h1, ih h.2]

theorem splitChars_append (sep : Char) (l t : List Char) (h : sep ∉ l) :
    splitChars sep (l ++ sep :: t) = l :: splitChars sep t := by
  induction l with
  | nil => simp [splitChars]
  | cons a u ih =>
    simp only [List.mem_cons, not_or] at h
    have h1 : ¬ a = sep := fun e => h.1 e.symm
    simp [splitChars, h1, ih h.2]

/-- The pieces of a split hold no separator and, joined by it, give the
string back. -/
theorem splitChars_spec (sep : Char) (l : List Char) :
    (∀ p ∈ splitChars sep l, sep ∉ p) ∧
      l = List.intercalate [sep] (splitChars sep l) := by
  induction l with
  | nil => simp [splitChars, List.intercalate]
  | cons a t ih =>
    obtain ⟨ih1, ih2⟩ := ih
    simp only [splitChars]
    split_ifs with hc
    · subst hc
      constructor
      · intro p hp
        rcases List.mem_cons.mp hp with h | h
        · simp [h]
        · exact ih1 p h
      · cases h : splitChars a t with
        | nil => exact absurd h (splitChars_ne_nil _ _)
        | cons q qs =>
          rw [h] at ih2
          rw [ih2]
          simp [List.intercalate, List.intersperse]
    · cases h : splitChars sep t with
      | nil => exact absurd h (splitChars_ne_nil _ _)
      | cons q qs =>
        rw [h] at ih1 ih2
        constructor
        · intro p hp
          rcases List.mem_cons.mp hp with h' | h'
          · subst h'
            have := ih1 q (List.mem_cons_self _ _)
            simp only [List.mem_cons, not_or]
            exact ⟨fun e => hc e.symm, this⟩
          · exact ih1 p (List.mem_cons_of_mem _ h')
        · rw [ih2]
          cases qs <;> simp [List.intercalate, List.intersperse]

theorem splitChars_pair (sep : Char) (l a b : List Char) (h : splitChars sep l = [a, b]) :
    l = a ++ sep :: b ∧ sep ∉ a ∧ sep ∉ b := by
  have := splitChars_spec sep l
  rw [h] at this
  obtain ⟨h1, h2⟩ := this
  refine ⟨?_, h1 a (by simp), h1 b (by simp)⟩
  rw [h2]
  simp [List.intercalate, List.intersperse]

theorem digitVal_digitChar (d : Nat) (h : d < 10) : digitVal (Nat.digitChar d) = some d := by
  interval_cases d <;> rfl

theorem digitVal_range (c : Char) (d : Nat) (h : digitVal c = some d) :
    48 ≤ c.toNat ∧ c.toNat ≤ 57 := by
  unfold digitVal at h
  split_ifs at h with hc
  exact hc

theorem toDigitsCore_acc (fuel n : Nat) (ds : List Char) :
    Nat.toDigitsCore 10 fuel n ds = Nat.toDigitsCore 10 fuel n [] ++ ds := by
  induction fuel generalizing n ds with
  | zero => simp [Nat.toDigitsCore]
  | succ f ih =>
    simp only [Nat.toDigitsCore]
    split_ifs
    · simp
    · rw [ih (n / 10) (Nat.digitChar (n % 10) :: ds), ih (n / 10) [Nat.digitChar (n % 10)]]
      simp

theorem parseDigits_toDigitsCore (fuel n : Nat) (rest : List Char) (h : n < fuel) :
    parseDigits (Nat.toDigitsCore 10 fuel n [] ++ rest) 0 = parseDigits rest n := by
  induction fuel generalizing n rest with
  | zero => omega
  | succ f ih =>
    have hd := digitVal_digitChar (n % 10) (Nat.mod_lt _ (by decide))
    simp only [Nat.toDigitsCore]
    split_ifs with h0
    · have : n % 10 = n := by omega
      simp only [List.cons_append, List.nil_append, parseDigits, hd]
      rw [this]
      simp
    · rw [toDigitsCore_acc, List.append_assoc, ih (n / 10) _ (by omega)]
      simp only [List.cons_append, List.nil_append, parseDigits, hd]
      congr 1
      omega

theorem toDigitsCore_digits (fuel n : Nat) (ds : List Char) :
    ∀ c ∈ Nat.toDigitsCore 10 fuel n ds, c ∈ ds ∨ (48 ≤ c.toNat ∧ c.toNat ≤ 57) := by
  induction fuel generalizing n ds with
  | zero => intro c hc; left; simpa [Nat.toDigitsCore] using hc
  | succ f ih =>
    have hd := digitVal_range _ _ (digitVal_digitChar (n % 10) (Nat.mod_lt _ (by decide)))
    intro c hc
    simp only [Nat.toDigitsCore] at hc
    split_ifs at hc with h0
    · rcases List.mem_cons.mp hc with h | h
      · right; rw [h]; exact hd
      · left; exact h
    · rcases ih _ _ c hc with h | h
      · rcases List.mem_cons.mp h with h' | h'
        · right; rw [h']; exact hd
        · left; exact h'
      · right; exact h

theorem toDigits_ne_nil (n : Nat) : Nat.toDigits 10 n ≠ [] := by
  unfold Nat.toDigits
  simp only [Nat.toDigitsCore]
  split_ifs
  · simp
  · rw [toDigitsCore_acc]
    simp

theorem toString_nat_data (n : Nat) : (toString n).data = Nat.toDigits 10 n := rfl

theorem toString_nat_digits (n : Nat) :
    ∀ c ∈ (toString n).data, 48 ≤ c.toNat ∧ c.toNat ≤ 57 := by
  intro c hc
  rcases toDigitsCore_digits (n + 1) n [] c hc with h | h
  · simp at h
  · exact h

theorem toString_nat_ne (n : Nat) : toString n ≠ "" := by
  intro h
  exact toDigits_ne_nil n (congrArg String.data h)

theorem parseDigits_toString (n : Nat) : parseDigits (toString n).data 0 = some n := by
  have := parseDigits_toDigitsCore (n + 1) n [] (Nat.lt_succ_self n)
  simpa [parseDigits] using this

theorem toString_int_ofNat (n : Nat) : toString (n : Int) = toString n := rfl

theorem toString_int_negSucc (n : Nat) :
    toString (Int.negSucc n) = "-" ++ toString (n + 1) := rfl

/-- The decimal rendering of an integer holds no colon. -/
theorem toString_int_no_colon (p : Int) : ':' ∉ (toString p).data := by
  intro h
  cases p with
  | ofNat n =>
    have := toString_nat_digits n ':' h
    revert this
    decide
  | negSucc n =>
    rw [toString_int_negSucc, String.data_append] at h
    rcases List.mem_append.mp h with h' | h'
    · revert h'
      decide
    · have := toString_nat_digits (n + 1) ':' h'
      revert this
      decide

/-- `Atoi` reads back the decimal rendering of a natural number within the
range of `int`. -/
theorem Atoi_toString (n : Nat) (h : n < 2 ^ 63) : Atoi (toString n) = some (n : Int) := by
  have hp := parseDigits_toString n
  have hd := toString_nat_digits n
  have hne := toDigits_ne_nil n
  rw [← toString_nat_data] at hne
  unfold Atoi
  cases hs : (toString n).data with
  | nil => exact absurd hs hne
  | cons c cs =>
    rw [hs] at hp hd
    have hc := hd c (List.mem_cons_self _ _)
    have h1 : c ≠ '-' := by
      rintro rfl
      revert hc
      decide
    have h2 : c ≠ '+' := by
      rintro rfl
      revert hc
      decide
    have h3 : n < 9223372036854775808 := by omega
    simp [h1, h2, hp, intSize, h3]

/-! ## Facts about parseHost -/

theorem HasPrefix_append (p x : String) : HasPrefix (p ++ x) p = true := by
  simp [HasPrefix]

theorem TrimPrefix_append (p x : String) : TrimPrefix (p ++ x) p = x := by
  simp [TrimPrefix, HasPrefix_append]

theorem append_eq_left_iff (p x : String) : p ++ x = p ↔ x = "" := by
  constructor
  · intro h
    have := congrArg String.data h
    simp only [String.data_append, List.append_right_eq_self] at this
    exact String.ext this
  · rintro rfl
    exact String.ext (by simp)

/-- When the trimmed input is `tcp://` followed by a non-empty remainder,
that remainder reaches the second half of `parseHost`. -/
theorem parseHost_of_trim_tcp (s x : String) (h0 : TrimSpace s = "tcp://" ++ x)
    (hx : x ≠ "") : parseHost s = parseHostRest "tcp" x := by
  have h1 : ¬ ("tcp://" ++ x = "tcp://") := by
    rw [append_eq_left_iff]
    exact hx
  have h2 : HasPrefix ("tcp://" ++ x) "unix://" = false := by
    simp [HasPrefix, List.isPrefixOf]
  simp only [parseHost, h0, h1, h2, HasPrefix_append, TrimPrefix_append]
  simp

/-- Behind the prefix `tcp://`, a non-empty remainder without trailing white
space reaches the second half of `parseHost` as it is. -/
theorem parseHost_tcp (x : String) (hx : x ≠ "")
    (ht : x.data.rdropWhile IsSpace = x.data) :
    parseHost ("tcp://" ++ x) = parseHostRest "tcp" x :=
  parseHost_of_trim_tcp _ x
    (TrimSpace_append_fixed 't' ['c', 'p', ':', '/', '/'] x (by decide) hx ht) hx

theorem rdropWhile_append_left (p : Char → Bool) (a b : List Char)
    (ha : a.rdropWhile p = a) : (a ++ b).rdropWhile p = a ++ b.rdropWhile p := by
  induction b using List.reverseRecOn with
  | nil => simp [ha]
  | append_singleton b x ih =>
    rw [← List.append_assoc]
    by_cases hx : p x = true
    · rw [List.rdropWhile_concat_pos _ _ _ hx, List.rdropWhile_concat_pos _ _ _ hx, ih]
    · rw [List.rdropWhile_concat_neg _ _ _ hx, List.rdropWhile_concat_neg _ _ _ hx,
        List.append_assoc]

/-- Trimming `tcp://host:port` only removes the white space that ends the
port. -/
theorem TrimSpace_tcp_colon (h p : String) :
    TrimSpace ("tcp://" ++ h ++ ":" ++ p) =
      "tcp://" ++ (h ++ ":" ++ TrimRightFunc p IsSpace) := by
  apply String.ext
  have e : ("tcp://" ++ h ++ ":" ++ p).data =
      ('t' :: (['c', 'p', ':', '/', '/'] ++ h.data) ++ [':']) ++ p.data := by
    simp only [String.data_append, List.append_assoc]
    rfl
  have e2 : ("tcp://" ++ (h ++ ":" ++ TrimRightFunc p IsSpace)).data =
      ('t' :: (['c', 'p', ':', '/', '/'] ++ h.data) ++ [':']) ++
        p.data.rdropWhile IsSpace := by
    simp only [String.data_append, List.append_assoc]
    rfl
  have e3 : (TrimSpace ("tcp://" ++ h ++ ":" ++ p)).data =
      (("tcp://" ++ h ++ ":" ++ p).data.dropWhile IsSpace).rdropWhile IsSpace := rfl
  rw [e3, e2, e]
  have hd : (('t' :: (['c', 'p', ':', '/', '/'] ++ h.data) ++ [':']) ++ p.data).dropWhile
      IsSpace = ('t' :: (['c', 'p', ':', '/', '/'] ++ h.data) ++ [':']) ++ p.data := by
    apply dropWhile_cons_fixed
    decide
  rw [hd]
  apply rdropWhile_append_left
  apply List.rdropWhile_concat_neg
  decide

theorem digit_not_space (c : Char) (h : 48 ≤ c.toNat ∧ c.toNat ≤ 57) : IsSpace c = false := by
  have h1 := h.1
  have h2 := h.2
  simp only [IsSpace, Bool.or_eq_false_iff, Bool.and_eq_false_iff, decide_eq_false_iff_not,
    beq_eq_false_iff_ne, ne_eq]
  omega

theorem toString_nat_no_trail (n : Nat) :
    (toString n).data.rdropWhile IsSpace = (toString n).data := by
  apply rdropWhile_fixed_of_getLast
  intro c hc
  exact digit_not_space c (toString_nat_digits n c (List.mem_of_mem_getLast? hc))

/-- The second half of `parseHost` on `host:port` with a colon-free host
and a colon-free port: the outcome is decided by `Atoi` on the port. -/
theorem parseHostRest_tcp_colon (h q : String) (hh : ':' ∉ h.data) (hq : ':' ∉ q.data) :
    parseHostRest "tcp" (h ++ ":" ++ q) =
      match Atoi q with
      | some n =>
        if n ≠ 0 then .ok ("tcp", (if h = "" then "127.0.0.1" else h) ++ ":" ++ toString n)
        else .error (.invalidFormat (h ++ ":" ++ q))
      | none => .error (.invalidFormat (h ++ ":" ++ q)) := by
  have hc : Contains (h ++ ":" ++ q) ":" = true := by
    rw [Contains_colon_iff]
    simp
  have hs : Split (h ++ ":" ++ q) ':' = [h, q] := by
    have e : (h ++ ":" ++ q).data = h.data ++ ':' :: q.data := by
      simp only [String.data_append, List.append_assoc]
      rfl
    simp only [Split, e, splitChars_append _ _ _ hh, splitChars_of_not_mem _ _ hq]
    rfl
  have hu : ¬ (("tcp" : String) = "unix") := by decide
  simp only [parseHostRest, hc, hs, hu, Sprintf]
  cases Atoi q with
  | none => simp
  | some n => by_cases he : h = "" <;> by_cases h0 : n = 0 <;> simp [he, h0]

theorem colon_append_ne (h q : String) : h ++ ":" ++ q ≠ "" := by
  intro e
  have := congrArg String.data e
  simp at this

/-- The whole of `parseHost` on `tcp://host:port` with a colon-free host and
a colon-free port. -/
theorem parseHost_tcp_colon (h p : String) (hh : ':' ∉ h.data) (hp : ':' ∉ p.data) :
    parseHost ("tcp://" ++ h ++ ":" ++ p) =
      match Atoi (TrimRightFunc p IsSpace) with
      | some n =>
        if n ≠ 0 then .ok ("tcp", (if h = "" then "127.0.0.1" else h) ++ ":" ++ toString n)
        else .error (.invalidFormat (h ++ ":" ++ TrimRightFunc p IsSpace))
      | none => .error (.invalidFormat (h ++ ":" ++ TrimRightFunc p IsSpace)) := by
  have hq : ':' ∉ (TrimRightFunc p IsSpace).data := fun hm =>
    hp ((List.rdropWhile_prefix IsSpace p.data).subset hm)
  rw [parseHost_of_trim_tcp _ _ (TrimSpace_tcp_colon h p) (colon_append_ne _ _),
    parseHostRest_tcp_colon h _ hh hq]

theorem TrimRightFunc_fixed (s : String) (h : s.data.rdropWhile IsSpace = s.data) :
    TrimRightFunc s IsSpace = s :=
  String.ext h

theorem not_mem_of_Contains_colon (s : String) (h : Contains s ":" = false) :
    ':' ∉ s.data := by
  rw [← Contains_colon_iff, h]
  simp

theorem HasPrefix_data (s p : String) (h : HasPrefix s p = true) :
    ∃ t, s.data = p.data ++ t := by
  unfold HasPrefix at h
  rw [List.isPrefixOf_iff_prefix] at h
  obtain ⟨t, ht⟩ := h
  exact ⟨t, ht.symm⟩

/-- With the protocol `unix` the second half of `parseHost` returns the
address untouched. -/
theorem parseHostRest_unix (x : String) : parseHostRest "unix" x = .ok ("unix", x) := by
  have hu : ¬ (("unix" : String) = "tcp") := by decide
  simp [parseHostRest, hu]

/-- What a success of the second half of `parseHost` with the protocol `tcp`
looks like. -/
theorem parseHostRest_tcp_inv (x : String) (r : String × String)
    (h : parseHostRest "tcp" x = .ok r) :
    ∃ h0 h1 p, Split x ':' = [h0, h1] ∧ Atoi h1 = some p ∧ p ≠ 0 ∧
      r = ("tcp", (if h0 ≠ "" then h0 else "127.0.0.1") ++ ":" ++ toString p) := by
  have hu : ¬ (("tcp" : String) = "unix") := by decide
  unfold parseHostRest at h
  by_cases hc : Contains x ":" = true
  · simp only [hc, hu, ne_eq, not_false_eq_true, and_self, if_true, if_false] at h
    split at h
    · rename_i h0 h1 hs
      cases hp : Atoi h1 with
      | none => simp [hp] at h
      | some p =>
        simp only [hp] at h
        by_cases hz : p = 0
        · simp [hz] at h
        · simp only [hz, not_false_eq_true, if_true, Sprintf] at h
          refine ⟨h0, h1, p, hs, hp, hz, ?_⟩
          injection h with h
          exact h.symm
    · simp at h
  · simp [hc, hu] at h

/-- Behind the prefix `fd://` the result is the transport `fd` with the whole
trimmed input, prefix included, as the address. -/
theorem parseHost_fd (r : String) (h : TrimSpace ("fd://" ++ r) = "fd://" ++ r) :
    parseHost ("fd://" ++ r) = .ok ("fd", "fd://" ++ r) := by
  have h1 : ¬ ("fd://" ++ r = "tcp://") := by
    intro e
    have := congrArg String.data e
    simp only [String.data_append] at this
    have h2 := congrArg List.head? this
    simp at h2
  have h2 : HasPrefix ("fd://" ++ r) "unix://" = false := by
    simp [HasPrefix, List.isPrefixOf]
  have h3 : HasPrefix ("fd://" ++ r) "tcp://" = false := by
    simp [HasPrefix, List.isPrefixOf]
  simp only [parseHost, h, h1, h2, h3, HasPrefix_append]
  simp

/-! ## Facts about the decode loop -/

theorem loopBody_wellFormed (r : Decoded) (h : wellFormed r = true) :
    loopBody r = .next [.send r.event] := by
  obtain ⟨err, ev⟩ := r
  cases err with
  | some e => simp [wellFormed] at h
  | none =>
    cases ev with
    | none => simp [wellFormed] at h
    | some e =>
      have hs : ¬ (e.Status = "") := by simpa [wellFormed] using h
      simp [loopBody, decodeFailed, readStatus, hs]

theorem loopBody_cleanClose (r : Decoded) (h : isCleanClose r = true) :
    loopBody r = .stop [.log .connectionClosed] := by
  obtain ⟨err, ev⟩ := r
  cases err with
  | none =>
    cases ev with
    | none => simp [isCleanClose] at h
    | some e =>
      have hs : e.Status = "" := by simpa [isCleanClose] using h
      simp [loopBody, decodeFailed, cleanClose, readStatus, hs]
  | some d =>
    cases ev with
    | none =>
      have hd : d = .EOF := by simpa [isCleanClose] using h
      simp [loopBody, decodeFailed, cleanClose, hd]
    | some e =>
      by_cases hd : d = .EOF
      · simp [loopBody, decodeFailed, cleanClose, hd]
      · have hs : e.Status = "" := by simpa [isCleanClose, hd] using h
        simp [loopBody, decodeFailed, cleanClose, readStatus, hd, hs]

theorem loopBody_decodeError (r : Decoded) (h1 : r.err ≠ none) (h2 : isCleanClose r = false) :
    loopBody r = .stop [.log .cannotDecode, .closeConn, .closeBody] := by
  obtain ⟨err, ev⟩ := r
  cases err with
  | none => exact absurd rfl h1
  | some d =>
    have hd : ¬ (d = .EOF) := by
      intro e
      simp [isCleanClose, e] at h2
    cases ev with
    | none => simp [loopBody, decodeFailed, cleanClose, hd]
    | some e =>
      have hs : ¬ (e.Status = "") := by
        intro e'
        simp [isCleanClose, e'] at h2
      simp [loopBody, decodeFailed, cleanClose, readStatus, hd, hs]

/-- An outcome that is not a well-formed event either stops the loop without
a send, or is the nil event decoded without error, which panics. -/
theorem loopBody_not_wellFormed (r : Decoded) (h : wellFormed r = false) :
    (∃ effects, loopBody r = .stop effects ∧ published effects = [] ∧
        (r.err ≠ none ∨ r.event ≠ none)) ∨
      (loopBody r = .fault .nilDereference ∧ r.err = none ∧ r.event = none) := by
  by_cases hc : isCleanClose r = true
  · left
    refine ⟨_, loopBody_cleanClose r hc, by simp [published], ?_⟩
    obtain ⟨err, ev⟩ := r
    cases err with
    | some d => left; simp
    | none =>
      cases ev with
      | some e => right; simp
      | none => simp [isCleanClose] at hc
  · have hc' : isCleanClose r = false := by simpa using hc
    by_cases he : r.err = none
    · obtain ⟨err, ev⟩ := r
      simp only at he
      subst he
      cases ev with
      | none =>
        right
        simp [loopBody, decodeFailed, readStatus]
      | some e =>
        have hs : e.Status = "" := by simpa [wellFormed] using h
        simp [isCleanClose, hs] at hc'
    · left
      exact ⟨_, loopBody_decodeError r he hc', by simp [published], Or.inl he⟩

theorem published_send_cons (e : Option Event) (l : List Effect) :
    published ([.send e] ++ l) = e :: published l := by
  simp [published]

theorem published_append (l1 l2 : List Effect) :
    published (l1 ++ l2) = published l1 ++ published l2 := by
  simp [published]

theorem published_sends (l : List Decoded) :
    published (l.map (fun x => Effect.send x.event)) = l.map (·.event) := by
  induction l with
  | nil => rfl
  | cons a t ih =>
    rw [List.map_cons, List.map_cons, ← ih]
    exact published_send_cons a.event _

theorem decodeLoop_published (body : List Decoded) :
    published (decodeLoop body).1 = (body.takeWhile wellFormed).map (·.event) := by
  induction body with
  | nil => simp [decodeLoop, published]
  | cons r rs ih =>
    cases hw : wellFormed r with
    | true =>
      simp only [decodeLoop, loopBody_wellFormed r hw, List.takeWhile_cons, hw, if_true,
        List.map_cons, published_send_cons, ih]
    | false =>
      rcases loopBody_not_wellFormed r hw with ⟨effects, h1, h2, _⟩ | ⟨h1, _⟩
      · simp [decodeLoop, h1, h2, List.takeWhile_cons, hw]
      · simp [decodeLoop, h1, List.takeWhile_cons, hw, published]

/-- The loop run on a leading run of well-formed events followed by an
outcome that is not one: the run is sent, then the body handles that
outcome, and nothing after it is looked at. -/
theorem decodeLoop_append (pre : List Decoded) (r : Decoded) (post : List Decoded)
    (hpre : ∀ x ∈ pre, wellFormed x = true) (hr : wellFormed r = false) :
    decodeLoop (pre ++ r :: post) =
      (pre.map (fun x => Effect.send x.event) ++ (decodeLoop [r]).1, (decodeLoop [r]).2) ∧
      (decodeLoop [r]).2 ≠ .waiting := by
  induction pre with
  | nil =>
    rcases loopBody_not_wellFormed r hr with ⟨effects, h1, _, _⟩ | ⟨h1, _⟩
    · simp [decodeLoop, h1]
    · simp [decodeLoop, h1]
  | cons a t ih =>
    have ha := hpre a (List.mem_cons_self _ _)
    obtain ⟨ih1, ih2⟩ := ih (fun x hx => hpre x (List.mem_cons_of_mem _ hx))
    refine ⟨?_, ih2⟩
    have e : decodeLoop (a :: (t ++ r :: post)) =
        ([Effect.send a.event] ++ (decodeLoop (t ++ r :: post)).1,
          (decodeLoop (t ++ r :: post)).2) := by
      simp only [decodeLoop, loopBody_wellFormed a ha]
    rw [List.cons_append, e, ih1]
    simp

/-- The trace of an established connection whose decode loop ends on EOF or
on a decoded event with an empty status: the events decoded before it are
sent, `connection closed` is logged, and the next iteration follows at once,
with no `time.Sleep`, `c.Close()` or `resp.Body.Close()` in between. -/
theorem getEvents_clean_close (a : Attempt) (rest : List Attempt)
    (pre : List Decoded) (r : Decoded) (post : List Decoded)
    (hconn : (newConn a).2 = true) (hreq : a.newRequestFails = false)
    (hdo : a.doFails = false) (hbody : a.body = pre ++ r :: post)
    (hpre : ∀ x ∈ pre, wellFormed x = true) (hr : isCleanClose r = true) :
    getEvents (a :: rest) =
      (newConn a).1 ++ [.newRequest, .doRequest, .signalNotify] ++
        pre.map (fun x => Effect.send x.event) ++ [.log .connectionClosed] ++
        getEvents rest := by
  have hw : wellFormed r = false := by
    cases hw : wellFormed r with
    | false => rfl
    | true =>
      have h1 := loopBody_wellFormed r hw
      rw [loopBody_cleanClose r hr] at h1
      exact Step.noConfusion h1
  have hl := (decodeLoop_append pre r post hpre hw).1
  have h1 : decodeLoop [r] = ([.log .connectionClosed], .broke) := by
    simp [decodeLoop, loopBody_cleanClose r hr]
  have hi : iteration a =
      ((newConn a).1 ++ [.newRequest, .doRequest, .signalNotify] ++
        (pre.map (fun x => Effect.send x.event) ++ [.log .connectionClosed]), .broke) := by
    simp [iteration, hconn, hreq, hdo, hbody, hl, h1]
  simp [getEvents, hi]

/-! ## The claims -/

/-- C1: for every host `h` without a colon and every `n` with
`1 ≤ n ≤ 65535` written in plain decimal, `parseHost` of `tcp://h:n` succeeds
with transport `tcp` and the address `h:n`, where an empty `h` is replaced by
`127.0.0.1`. -/
theorem parseHost_tcp_host_port (h : String) (n : Nat) (hh : Contains h ":" = false)
    (h1 : 1 ≤ n) (h2 : n ≤ 65535) :
    parseHost ("tcp://" ++ h ++ ":" ++ toString n) =
      .ok ("tcp", (if h = "" then "127.0.0.1" else h) ++ ":" ++ toString n) := by
  have hn : ':' ∉ (toString n).data := toString_int_no_colon (n : Int)
  have ha : Atoi (toString n) = some (n : Int) := Atoi_toString n (by omega)
  have h0 : ¬ ((n : Int) = 0) := by omega
  rw [parseHost_tcp_colon h _ (not_mem_of_Contains_colon h hh) hn,
    TrimRightFunc_fixed _ (toString_nat_no_trail n), ha]
  simp only [ne_eq, h0, not_false_eq_true, if_true]
  rfl

/-- C1 at `h = ""`, `n = 1234`: `tcp://:1234` gives `("tcp", "127.0.0.1:1234")`. -/
theorem parseHost_tcp_host_port_witness :
    Contains "" ":" = false ∧ 1 ≤ 1234 ∧ 1234 ≤ 65535 ∧
      ("tcp://:1234" : String) = "tcp://" ++ "" ++ ":" ++ toString 1234 ∧
      parseHost ("tcp://" ++ "" ++ ":" ++ toString 1234) = .ok ("tcp", "127.0.0.1:1234") :=
  ⟨by decide, by decide, by decide, by decide,
    (parseHost_tcp_host_port "" 1234 (by decide) (by decide) (by decide)).trans (by decide)⟩

/-- C2 at the failing input: `parseHost` of `fd://whatever` returns the
transport `fd` with the whole trimmed input, prefix included, as the address,
not the remainder `whatever`. -/
theorem parseHost_fd_keeps_scheme :
    parseHost "fd://whatever" = .ok ("fd", "fd://whatever") ∧
      parseHost "fd://whatever" ≠ .ok ("fd", "whatever") := by
  decide

/-- C3 refuted as stated: the port `-5` holds no colon and is not positive,
yet `parseHost` succeeds on `tcp://host:-5`; and the port `80 ` (with a
trailing blank) is not read by `Atoi`, yet `parseHost` succeeds on
`tcp://host:80 `. -/
theorem parseHost_negative_port_accepted :
    Contains "host" ":" = false ∧ Contains "-5" ":" = false ∧
      Atoi "-5" = some (-5) ∧ parseHost "tcp://host:-5" = .ok ("tcp", "host:-5") ∧
      Atoi "80 " = none ∧ parseHost "tcp://host:80 " = .ok ("tcp", "host:80") := by
  decide

/-- C3 as amended: for every host `h` and port `p` without a colon, the
outcome of `parseHost` on `tcp://h:p` is decided by `Atoi` on `p` without
its trailing white space: it succeeds exactly when that is read as a nonzero
integer `n` (negative ones included), with the address `h:n`, and fails with
the invalid-format error otherwise. -/
theorem parseHost_tcp_port_nonzero (h p : String) (hh : Contains h ":" = false)
    (hp : Contains p ":" = false) :
    ((∀ r, parseHost ("tcp://" ++ h ++ ":" ++ p) = .ok r →
        ∃ n : Int, Atoi (TrimRightFunc p IsSpace) = some n ∧ n ≠ 0) ∧
      (∀ n : Int, Atoi (TrimRightFunc p IsSpace) = some n → n ≠ 0 →
        parseHost ("tcp://" ++ h ++ ":" ++ p) =
          .ok ("tcp", (if h = "" then "127.0.0.1" else h) ++ ":" ++ toString n)) ∧
      ((Atoi (TrimRightFunc p IsSpace) = none ∨ Atoi (TrimRightFunc p IsSpace) = some 0) →
        parseHost ("tcp://" ++ h ++ ":" ++ p) =
          .error (.invalidFormat (h ++ ":" ++ TrimRightFunc p IsSpace)))) := by
  have e := parseHost_tcp_colon h p (not_mem_of_Contains_colon h hh)
    (not_mem_of_Contains_colon p hp)
  rw [e]
  cases ha : Atoi (TrimRightFunc p IsSpace) with
  | none => simp
  | some n =>
    by_cases hz : n = 0
    · simp [hz]
    · simp [hz]

/-- C3 as amended, at `h = "host"` and the ports `-5` (accepted) and `0`
(rejected). -/
theorem parseHost_tcp_port_nonzero_witness :
    Contains "host" ":" = false ∧ Contains "-5" ":" = false ∧ Contains "0" ":" = false ∧
      Atoi (TrimRightFunc "-5" IsSpace) = some (-5) ∧
      Atoi (TrimRightFunc "0" IsSpace) = some 0 ∧
      parseHost ("tcp://" ++ "host" ++ ":" ++ "-5") = .ok ("tcp", "host:-5") ∧
      parseHost ("tcp://" ++ "host" ++ ":" ++ "0") = .error (.invalidFormat "host:0") :=
  ⟨by decide, by decide, by decide, by decide, by decide,
    ((parseHost_tcp_port_nonzero "host" "-5" (by decide) (by decide)).2.1 (-5)
      (by decide) (by decide)).trans (by decide),
    (parseHost_tcp_port_nonzero "host" "0" (by decide) (by decide)).2.2
      (Or.inr (by decide))⟩

/-- C4: `parseHost ""` and `parseHost "unix://"` both return
`("unix", "/var/run/docker.sock")`, and for every non-empty path `p` without
trailing white space `parseHost ("unix://" ++ p)` returns `("unix", p)`,
whatever characters `p` holds. -/
theorem parseHost_unix :
    parseHost "" = .ok ("unix", "/var/run/docker.sock") ∧
      parseHost "unix://" = .ok ("unix", "/var/run/docker.sock") ∧
      ∀ p : String, p ≠ "" → TrimRightFunc p IsSpace = p →
        parseHost ("unix://" ++ p) = .ok ("unix", p) := by
  refine ⟨by decide, by decide, ?_⟩
  intro p hp ht
  have h0 : TrimSpace ("unix://" ++ p) = "unix://" ++ p :=
    TrimSpace_append_fixed 'u' ['n', 'i', 'x', ':', '/', '/'] p (by decide) hp
      (congrArg String.data ht)
  have h1 : ¬ ("unix://" ++ p = "tcp://") := by
    intro e
    have := congrArg String.data e
    simp only [String.data_append] at this
    have h2 := congrArg List.head? this
    simp at h2
  simp only [parseHost, h0, h1, HasPrefix_append, TrimPrefix_append, parseHostRest_unix]
  simp [hp]

/-- C4 at the path `/run/a:b://c d`, which holds a colon, `://` and a blank. -/
theorem parseHost_unix_witness :
    ("/run/a:b://c d" : String) ≠ "" ∧ TrimRightFunc "/run/a:b://c d" IsSpace = "/run/a:b://c d" ∧
      parseHost ("unix://" ++ "/run/a:b://c d") = .ok ("unix", "/run/a:b://c d") :=
  ⟨by decide, by decide, parseHost_unix.2.2 "/run/a:b://c d" (by decide) (by decide)⟩

/-- C5: for every non-empty string `s` without surrounding white space that
does not contain `://`, `parseHost s` and `parseHost ("tcp://" ++ s)` are the
same result, success or failure. -/
theorem parseHost_bare_eq_tcp (s : String) (hne : s ≠ "") (ht : TrimSpace s = s)
    (hc : Contains s "://" = false) :
    parseHost s = parseHost ("tcp://" ++ s) := by
  have hno : ∀ a t : List Char, s.data ≠ a ++ "://".data ++ t := by
    intro a t e
    have := containsChars_of_infix "://".data a t
    rw [← e] at this
    unfold Contains at hc
    rw [hc] at this
    exact Bool.noConfusion this
  have h1 : ¬ (s = "tcp://") := by
    intro e
    exact hno "tcp".data [] (by rw [e]; rfl)
  have h2 : HasPrefix s "unix://" = false := by
    cases h : HasPrefix s "unix://" with
    | false => rfl
    | true =>
      obtain ⟨t, e⟩ := HasPrefix_data _ _ h
      exact absurd (by rw [e]; rfl) (hno "unix".data t)
  have h3 : HasPrefix s "tcp://" = false := by
    cases h : HasPrefix s "tcp://" with
    | false => rfl
    | true =>
      obtain ⟨t, e⟩ := HasPrefix_data _ _ h
      exact absurd (by rw [e]; rfl) (hno "tcp".data t)
  have h4 : HasPrefix s "fd://" = false := by
    cases h : HasPrefix s "fd://" with
    | false => rfl
    | true =>
      obtain ⟨t, e⟩ := HasPrefix_data _ _ h
      exact absurd (by rw [e]; rfl) (hno "fd".data t)
  rw [parseHost_tcp s hne ((TrimSpace_eq_self_iff s).mp ht).2]
  simp only [parseHost, ht, h1, h2, h3, h4, hne, hc]
  simp

/-- C5 at `example.com:80`. -/
theorem parseHost_bare_eq_tcp_witness :
    ("example.com:80" : String) ≠ "" ∧ TrimSpace "example.com:80" = "example.com:80" ∧
      Contains "example.com:80" "://" = false ∧
      parseHost "example.com:80" = parseHost ("tcp://" ++ "example.com:80") :=
  ⟨by decide, by decide, by decide,
    parseHost_bare_eq_tcp "example.com:80" (by decide) (by decide) (by decide)⟩

/-- C6: for every string `s` whose trimmed form contains `://` but does not
start with `unix://`, `tcp://` or `fd://`, `parseHost s` fails with the
invalid-protocol error (and so returns no transport or address). -/
theorem parseHost_unknown_protocol (s : String)
    (hc : Contains (TrimSpace s) "://" = true)
    (hu : HasPrefix (TrimSpace s) "unix://" = false)
    (ht : HasPrefix (TrimSpace s) "tcp://" = false)
    (hf : HasPrefix (TrimSpace s) "fd://" = false) :
    parseHost s = .error (.invalidProtocol (TrimSpace s)) := by
  have h1 : ¬ (TrimSpace s = "tcp://") := by
    intro e
    rw [e] at ht
    revert ht
    decide
  have h2 : ¬ (TrimSpace s = "") := by
    intro e
    rw [e] at hc
    revert hc
    decide
  simp only [parseHost, h1, h2, hu, ht, hf, hc]
  simp

/-- C6 at ` http://example.com:80`. -/
theorem parseHost_unknown_protocol_witness :
    Contains (TrimSpace " http://example.com:80") "://" = true ∧
      HasPrefix (TrimSpace " http://example.com:80") "unix://" = false ∧
      HasPrefix (TrimSpace " http://example.com:80") "tcp://" = false ∧
      HasPrefix (TrimSpace " http://example.com:80") "fd://" = false ∧
      parseHost " http://example.com:80" =
        .error (.invalidProtocol (TrimSpace " http://example.com:80")) :=
  ⟨by decide, by decide, by decide, by decide,
    parseHost_unknown_protocol " http://example.com:80" (by decide) (by decide) (by decide)
      (by decide)⟩

/-- C7: whenever `parseHost s` succeeds with transport `tcp` and address `a`,
`a` is `host:port` with exactly one colon, a non-empty host and the decimal
rendering of a nonzero integer as port. -/
theorem parseHost_tcp_address_shape (s a : String) (h : parseHost s = .ok ("tcp", a)) :
    a.data.count ':' = 1 ∧
      ∃ (host : String) (port : Int), a = host ++ ":" ++ toString port ∧ host ≠ "" ∧
        ':' ∉ host.data ∧ port ≠ 0 := by
  have key : ∀ x, parseHostRest "tcp" x = .ok ("tcp", a) →
      a.data.count ':' = 1 ∧
      ∃ (host : String) (port : Int), a = host ++ ":" ++ toString port ∧ host ≠ "" ∧
        ':' ∉ host.data ∧ port ≠ 0 := by
    intro x hx
    obtain ⟨h0, h1, p, hs, hp, hz, hr⟩ := parseHostRest_tcp_inv x _ hx
    have ha : a = (if h0 ≠ "" then h0 else "127.0.0.1") ++ ":" ++ toString p :=
      congrArg Prod.snd hr
    have hsp : splitChars ':' x.data = [h0.data, h1.data] := by
      have := congrArg (List.map String.data) hs
      simpa [Split, List.map_map, Function.comp_def] using this
    have hh0 : ':' ∉ h0.data := (splitChars_pair _ _ _ _ hsp).2.1
    have hhost : (if h0 ≠ "" then h0 else "127.0.0.1") ≠ "" ∧
        ':' ∉ (if h0 ≠ "" then h0 else "127.0.0.1").data := by
      by_cases he : h0 = ""
      · simp only [he, ne_eq, not_true_eq_false, if_false]
        decide
      · simp only [he, ne_eq, not_false_eq_true, if_true]
        exact ⟨trivial, hh0⟩
    refine ⟨?_, _, p, ha, hhost.1, hhost.2, hz⟩
    rw [ha]
    simp only [String.data_append, List.count_append,
      List.count_eq_zero_of_not_mem hhost.2,
      List.count_eq_zero_of_not_mem (toString_int_no_colon p)]
    rfl
  unfold parseHost at h
  simp only at h
  have hunix : ∀ x, parseHostRest "unix" x ≠ .ok ("tcp", a) := by
    intro x e
    rw [parseHostRest_unix] at e
    injection e with e
    have : ("unix" : String) = "tcp" := congrArg Prod.fst e
    revert this
    decide
  split_ifs at h with c1 c2 c3 c4 c5 c6 c7
  · exact absurd h (hunix _)
  · exact absurd h (hunix _)
  · exact key _ h
  · injection h with h
    have : ("fd" : String) = "tcp" := congrArg Prod.fst h
    exact absurd this (by decide)
  · exact absurd h (hunix _)
  · exact key _ h

/-- C7 at `s = " :80 "`, which resolves to `127.0.0.1:80`. -/
theorem parseHost_tcp_address_shape_witness :
    parseHost " :80 " = .ok ("tcp", "127.0.0.1:80") ∧
      ("127.0.0.1:80" : String).data.count ':' = 1 ∧
      ∃ (host : String) (port : Int), "127.0.0.1:80" = host ++ ":" ++ toString port ∧
        host ≠ "" ∧ ':' ∉ host.data ∧ port ≠ 0 :=
  ⟨by decide, parseHost_tcp_address_shape " :80 " "127.0.0.1:80" (by decide)⟩

/-- C8: for every sequence of decode results, the events the decode loop
sends are exactly the longest leading run of successfully decoded events with
a non-empty status, in order; the first result that is not one (EOF, a decode
error, an empty-status event) ends the loop by `break`, is not sent, and
nothing after it is looked at. -/
theorem decodeLoop_publishes_leading_run (body : List Decoded) :
    published (decodeLoop body).1 = (body.takeWhile wellFormed).map (·.event) ∧
      ∀ pre r post, body = pre ++ r :: post → (∀ x ∈ pre, wellFormed x = true) →
        wellFormed r = false →
        published (decodeLoop body).1 = pre.map (·.event) ∧
          decodeLoop body = decodeLoop (pre ++ [r]) ∧
          (decodeLoop body).2 ≠ .waiting ∧
          ((r.err ≠ none ∨ r.event ≠ none) → (decodeLoop body).2 = .broke) := by
  refine ⟨decodeLoop_published body, ?_⟩
  intro pre r post hb hpre hr
  subst hb
  obtain ⟨h1, h2⟩ := decodeLoop_append pre r post hpre hr
  obtain ⟨h3, _⟩ := decodeLoop_append pre r [] hpre hr
  have hpub : published (decodeLoop [r]).1 = [] := by
    rw [decodeLoop_published]
    simp [List.takeWhile_cons, hr]
  refine ⟨?_, by rw [h1, h3], by rw [h1]; exact h2, ?_⟩
  · rw [h1]
    rw [published_append, hpub, published_sends, List.append_nil]
  · intro hne
    rw [h1]
    rcases loopBody_not_wellFormed r hr with ⟨effects, e1, _, _⟩ | ⟨_, e2, e3⟩
    · simp [decodeLoop, e1]
    · rcases hne with h | h
      · exact absurd e2 h
      · exact absurd e3 h

/-- C8 at a body of two events, then EOF, then a third event: the two are
sent, the loop breaks, the third is never looked at. -/
theorem decodeLoop_publishes_leading_run_witness :
    published (decodeLoop [⟨none, some ⟨"start", "a"⟩⟩, ⟨none, some ⟨"die", "b"⟩⟩,
        ⟨some .EOF, none⟩, ⟨none, some ⟨"start", "c"⟩⟩]).1 =
      [some ⟨"start", "a"⟩, some ⟨"die", "b"⟩] ∧
    (decodeLoop [⟨none, some ⟨"start", "a"⟩⟩, ⟨none, some ⟨"die", "b"⟩⟩,
        ⟨some .EOF, none⟩, ⟨none, some ⟨"start", "c"⟩⟩]).2 = .broke :=
  have h := (decodeLoop_publishes_leading_run
    [⟨none, some ⟨"start", "a"⟩⟩, ⟨none, some ⟨"die", "b"⟩⟩, ⟨some .EOF, none⟩,
      ⟨none, some ⟨"start", "c"⟩⟩]).2
    [⟨none, some ⟨"start", "a"⟩⟩, ⟨none, some ⟨"die", "b"⟩⟩] ⟨some .EOF, none⟩
    [⟨none, some ⟨"start", "c"⟩⟩] rfl (by decide) (by decide)
  ⟨h.1, h.2.2.2 (Or.inl (by decide))⟩

/-- C9 at the failing inputs: on a connection whose body gives EOF at once,
and on one whose first event has an empty status, the goroutine goes from the
log line `connection closed` straight to the next `net.Dial`, without the
10-second wait but also without calling `c.Close()` or `resp.Body.Close()`. -/
theorem getEvents_clean_close_skips_close :
    getEvents [⟨"", false, false, false, [⟨some .EOF, none⟩]⟩,
        ⟨"", false, false, false, [⟨none, some ⟨"", ""⟩⟩]⟩,
        ⟨"", false, false, false, []⟩] =
      [.dial "unix" "/var/run/docker.sock", .newRequest, .doRequest, .signalNotify,
        .log .connectionClosed,
        .dial "unix" "/var/run/docker.sock", .newRequest, .doRequest, .signalNotify,
        .log .connectionClosed,
        .dial "unix" "/var/run/docker.sock", .newRequest, .doRequest, .signalNotify] ∧
    Effect.closeConn ∉ getEvents [⟨"", false, false, false, [⟨some .EOF, none⟩]⟩,
        ⟨"", false, false, false, [⟨none, some ⟨"", ""⟩⟩]⟩,
        ⟨"", false, false, false, []⟩] ∧
    Effect.closeBody ∉ getEvents [⟨"", false, false, false, [⟨some .EOF, none⟩]⟩,
        ⟨"", false, false, false, [⟨none, some ⟨"", ""⟩⟩]⟩,
        ⟨"", false, false, false, []⟩] := by
  decide

/-- C10 at the failing input: when `Decode` returns a nil error and leaves
`event` nil (the JSON value `null`), line 143 reads `event.Status` through the
nil pointer and the loop panics; this is the only outcome that does. -/
theorem decodeLoop_nil_event_panics :
    decodeFailed ⟨none, none⟩ = .error .nilDereference ∧
      decodeLoop [⟨none, none⟩] = ([], .panicked .nilDereference) ∧
      ∀ r : Decoded, loopBody r = .fault .nilDereference ↔ (r.err = none ∧ r.event = none) := by
  refine ⟨by decide, by decide, ?_⟩
  intro r
  constructor
  · intro h
    cases hw : wellFormed r with
    | true =>
      rw [loopBody_wellFormed r hw] at h
      exact Step.noConfusion h
    | false =>
      rcases loopBody_not_wellFormed r hw with ⟨effects, e1, _, _⟩ | ⟨_, e2, e3⟩
      · rw [e1] at h
        exact Step.noConfusion h
      · exact ⟨e2, e3⟩
  · rintro ⟨h1, h2⟩
    obtain ⟨err, ev⟩ := r
    simp only at h1 h2
    subst h1 h2
    decide

end DockerClient
